import Mathlib

/-! Verification of the `bevy_mod_picking` core crate
(`crates/bevy_picking_core/src/lib.rs`) against its specification:
pickability flags, focus resolution, event ordering, the click/drag
state machine, and the plugin system schedule. Components whose source
module is declared but not included (`focus.rs`, `events.rs`,
`pointer.rs`, `backend.rs`) are modelled from the specification text and
marked as such on their definitions. -/

namespace BevyPicking

/-- Entities are identified by numeric ids. -/
abbrev Entity := Nat

/-- The `Pickable` component of `lib.rs` (lines 54-95): two independent
flags controlling occlusion blocking and hoverability. -/
structure Pickable where
  should_block_lower : Bool
  is_hoverable : Bool
deriving DecidableEq, Repr

/-- `Pickable::IGNORE` of `lib.rs` (lines 97-105): this entity will not
block entities beneath it, nor will it emit events. -/
def Pickable.IGNORE : Pickable := ⟨false, false⟩

/-- `impl Default for Pickable` of `lib.rs` (lines 107-114): blocking and
hoverable. -/
def Pickable.default : Pickable := ⟨true, true⟩

/-- Modelled from the spec: the per-entity pickability lookup used by the
Focus Resolver (`update_focus` lives in `bevy_picking_core/src/focus.rs`,
which is not among the sources); entities without the override component
use the default value. -/
def effectivePickable (pick : Entity → Option Pickable) (e : Entity) : Pickable :=
  (pick e).getD Pickable.default

/-- Modelled from the spec: the Focus Resolver algorithm of `update_focus`
(`bevy_picking_core/src/focus.rs`, not among the sources). Walk the merged
hit candidates in ranked order; append each hoverable entity to the hover
set; if the entity blocks lower entities, stop after processing it,
otherwise continue. -/
def resolve (pick : Entity → Option Pickable) : List Entity → List Entity
  | [] => []
  | e :: rest =>
    let p := effectivePickable pick e
    let tail := if p.should_block_lower then [] else resolve pick rest
    if p.is_hoverable then e :: tail else tail

/-- The ranked prefix of a candidate list up to and including the first
entity whose effective pickability has `should_block_lower = true`, as the
spec words it. -/
def rankedPrefixThroughBlocker (pick : Entity → Option Pickable) :
    List Entity → List Entity
  | [] => []
  | e :: rest =>
    if (effectivePickable pick e).should_block_lower then [e]
    else e :: rankedPrefixThroughBlocker pick rest

/-- Claim C1: for every hit-candidate sequence, the Focus Resolver's hover
set is exactly the ranked prefix of candidates up to and including the
first entity whose effective pickability blocks lower entities (default
when no override is attached), with every non-hoverable entity omitted
from the set; entities ranked after the first blocker are excluded
entirely. -/
theorem resolve_eq_filter_rankedPrefixThroughBlocker
    (pick : Entity → Option Pickable) (cs : List Entity) :
    resolve pick cs =
      (rankedPrefixThroughBlocker pick cs).filter
        (fun e => (effectivePickable pick e).is_hoverable) := by
  induction cs with
  | nil => rfl
  | cons e rest ih =>
    simp only [resolve, rankedPrefixThroughBlocker]
    by_cases hb : (effectivePickable pick e).should_block_lower
    · by_cases hh : (effectivePickable pick e).is_hoverable <;>
        simp [hb, hh, List.filter]
    · by_cases hh : (effectivePickable pick e).is_hoverable <;>
        simp [hb, hh, List.filter, ih]

/-- Claim C2: the hover set never contains an entity whose effective
pickability has `is_hoverable = false`; blocking is decided independently
of hoverability, so any blocking entity (hoverable or not) at the head of
the ranking excludes everything ranked beneath it. -/
theorem resolve_hoverable_invariant_and_blocking_independent
    (pick : Entity → Option Pickable) :
    (∀ cs e, e ∈ resolve pick cs →
      (effectivePickable pick e).is_hoverable = true) ∧
    (∀ (xs : List Entity) (e : Entity) (ys : List Entity),
      (effectivePickable pick e).should_block_lower = true →
      resolve pick (xs ++ e :: ys) = resolve pick (xs ++ [e])) := by
  constructor
  · intro cs
    induction cs with
    | nil => intro e h; simp [resolve] at h
    | cons x rest ih =>
      intro e h
      simp only [resolve] at h
      by_cases hb : (effectivePickable pick x).should_block_lower
      · by_cases hh : (effectivePickable pick x).is_hoverable
        · simp [hb, hh] at h; subst h; exact hh
        · simp [hb, hh] at h
      · by_cases hh : (effectivePickable pick x).is_hoverable
        · simp [hb, hh] at h
          rcases h with h | h
          · subst h; exact hh
          · exact ih e h
        · simp [hb, hh] at h
          exact ih e h
  · intro xs e ys hb
    induction xs with
    | nil => simp [resolve, hb]
    | cons x xs ih =>
      by_cases hx : (effectivePickable pick x).should_block_lower
      · simp [resolve, hx]
      · simp [resolve, hx, ih]

/-- Claim C2 witness: a non-hoverable blocking entity blocks everything
beneath it and does not itself enter the hover set, evaluated at a
concrete override table. -/
theorem resolve_hoverable_invariant_witness :
    ((effectivePickable (fun x => if x = 1 then some ⟨true, false⟩ else none)
        1).should_block_lower = true) ∧
    resolve (fun x => if x = 1 then some ⟨true, false⟩ else none)
        ([0] ++ 1 :: [2, 3]) =
      resolve (fun x => if x = 1 then some ⟨true, false⟩ else none)
        ([0] ++ [1]) :=
  ⟨by decide,
    (resolve_hoverable_invariant_and_blocking_independent
        (fun x => if x = 1 then some ⟨true, false⟩ else none)).2
      [0] 1 [2, 3] (by decide)⟩

/-- Claim C3: `Pickable::IGNORE` has both flags false, and an entity
carrying it is fully transparent: at any position in any candidate
sequence it never stops hover-set construction, and it never appears in
any hover set. -/
theorem ignore_fully_transparent :
    Pickable.IGNORE.should_block_lower = false ∧
    Pickable.IGNORE.is_hoverable = false ∧
    (∀ (pick : Entity → Option Pickable) (xs ys : List Entity) (e : Entity),
      pick e = some Pickable.IGNORE →
      resolve pick (xs ++ e :: ys) = resolve pick (xs ++ ys)) ∧
    (∀ (pick : Entity → Option Pickable) (cs : List Entity) (e : Entity),
      pick e = some Pickable.IGNORE → e ∉ resolve pick cs) := by
  refine ⟨rfl, rfl, ?_, ?_⟩
  · intro pick xs ys e he
    induction xs with
    | nil =>
      simp [resolve, effectivePickable, he, Pickable.IGNORE, Pickable.default]
    | cons x xs ih =>
      by_cases hb : (effectivePickable pick x).should_block_lower
      · simp [resolve, hb]
      · simp [resolve, hb, ih]
  · intro pick cs e he hmem
    have hhov :=
      (resolve_hoverable_invariant_and_blocking_independent pick).1 cs e hmem
    rw [effectivePickable, he] at hhov
    simp [Pickable.IGNORE] at hhov

/-- Claim C3 witness: an entity with the `IGNORE` override, placed in the
middle of a candidate list under a concrete override table, is skipped
without stopping iteration and is absent from the hover set. -/
theorem ignore_fully_transparent_witness :
    resolve (fun x => if x = 2 then some Pickable.IGNORE else none)
        ([9] ++ 2 :: [7]) =
      resolve (fun x => if x = 2 then some Pickable.IGNORE else none)
        ([9] ++ [7]) ∧
    2 ∉ resolve (fun x => if x = 2 then some Pickable.IGNORE else none)
        [2, 9] :=
  ⟨ignore_fully_transparent.2.2.1
      (fun x => if x = 2 then some Pickable.IGNORE else none) [9] [7] 2
      (by decide),
    ignore_fully_transparent.2.2.2
      (fun x => if x = 2 then some Pickable.IGNORE else none) [2, 9] 2
      (by decide)⟩

/-- Claim C4: entities without an explicit pickability override use the
default pickability, which blocks lower entities and is hoverable. -/
theorem default_pickable_blocks_and_hovers :
    Pickable.default.should_block_lower = true ∧
    Pickable.default.is_hoverable = true ∧
    ∀ (pick : Entity → Option Pickable) (e : Entity), pick e = none →
      effectivePickable pick e = Pickable.default := by
  refine ⟨rfl, rfl, ?_⟩
  intro pick e he
  simp [effectivePickable, he]

/-- Claim C4 witness: the default is used at a concrete entity with no
override attached. -/
theorem default_pickable_blocks_and_hovers_witness :
    effectivePickable (fun _ => none) 0 = Pickable.default :=
  default_pickable_blocks_and_hovers.2.2 (fun _ => none) 0 rfl

/-- The `PickingPluginsSettings` resource of `lib.rs` (lines 20-27). -/
structure PickingPluginsSettings where
  is_enabled : Bool
  is_input_enabled : Bool
  is_focus_enabled : Bool
deriving DecidableEq, Repr

/-- `PickingPluginsSettings::input_should_run` of `lib.rs` (lines 31-33). -/
def PickingPluginsSettings.input_should_run (s : PickingPluginsSettings) : Bool :=
  s.is_input_enabled && s.is_enabled

/-- `PickingPluginsSettings::focus_should_run` of `lib.rs` (lines 36-38). -/
def PickingPluginsSettings.focus_should_run (s : PickingPluginsSettings) : Bool :=
  s.is_focus_enabled && s.is_enabled

/-- `impl Default for PickingPluginsSettings` of `lib.rs` (lines 41-49). -/
def PickingPluginsSettings.default : PickingPluginsSettings := ⟨true, true, true⟩

/-- Claim C10: `is_enabled` is a master switch: `input_should_run` is true
iff `is_enabled` and `is_input_enabled` both are, `focus_should_run` is
true iff `is_enabled` and `is_focus_enabled` both are, the default enables
all three flags, and `is_enabled = false` forces both run conditions
false regardless of the other flags. -/
theorem picking_settings_master_switch :
    (∀ s : PickingPluginsSettings,
      (s.input_should_run = true ↔
        s.is_enabled = true ∧ s.is_input_enabled = true) ∧
      (s.focus_should_run = true ↔
        s.is_enabled = true ∧ s.is_focus_enabled = true)) ∧
    PickingPluginsSettings.default.is_enabled = true ∧
    PickingPluginsSettings.default.is_input_enabled = true ∧
    PickingPluginsSettings.default.is_focus_enabled = true ∧
    ∀ b c : Bool,
      (PickingPluginsSettings.mk false b c).input_should_run = false ∧
      (PickingPluginsSettings.mk false b c).focus_should_run = false := by
  refine ⟨?_, rfl, rfl, rfl, ?_⟩
  · intro s
    constructor <;>
      simp [PickingPluginsSettings.input_should_run,
        PickingPluginsSettings.focus_should_run, Bool.and_eq_true, and_comm]
  · intro b c
    constructor <;>
      simp [PickingPluginsSettings.input_should_run,
        PickingPluginsSettings.focus_should_run]

/-- The five systems that `InteractionPlugin::build` registers in `lib.rs`
(lines 233-244). -/
inductive FocusSystem
  | update_focus
  | pointer_events
  | update_interactions
  | send_click_and_drag_events
  | send_drag_over_events
deriving DecidableEq, Repr

/-- The chained system list of `InteractionPlugin::build` (`lib.rs` lines
233-244): `.chain()` runs these strictly in list order inside
`PickSet::Focus`. -/
def interactionFocusChain : List FocusSystem :=
  [.update_focus, .pointer_events, .update_interactions,
    .send_click_and_drag_events, .send_drag_over_events]

/-- A system runs strictly before another when it appears strictly earlier
in the chained list. -/
abbrev runsBefore (a b : FocusSystem) : Prop :=
  interactionFocusChain.indexOf a < interactionFocusChain.indexOf b

/-- Claim C8: within a frame, `update_focus` (the hover-set producer) runs
strictly before `pointer_events`, `update_interactions`, and both drag
systems; the chain holds each system exactly once, so the hover-set table
has a single producer that finishes before its consumers read it. -/
theorem update_focus_runs_before_consumers :
    interactionFocusChain.Nodup ∧
    runsBefore .update_focus .pointer_events ∧
    runsBefore .update_focus .update_interactions ∧
    runsBefore .update_focus .send_click_and_drag_events ∧
    runsBefore .update_focus .send_drag_over_events := by
  refine ⟨by decide, by decide, by decide, by decide, by decide⟩

/-- Event kinds that the Event Engine can emit for one pointer in one
frame. -/
inductive EvKind
  | outK
  | overK
  | moveK
  | downK
  | upK
  | clickK
  | scrollK
deriving DecidableEq, Repr

/-- Position of an event kind in the fixed per-frame emission order of the
spec: Out, Over, Move, Down, Up/Click, Scroll. `upK` and `clickK` share a
slot, with Up emitted before Click inside it. -/
def EvKind.rank : EvKind → Nat
  | .outK => 0
  | .overK => 1
  | .moveK => 2
  | .downK => 3
  | .upK => 4
  | .clickK => 4
  | .scrollK => 5

/-- A typed event together with its target entity. -/
structure PEvent where
  kind : EvKind
  target : Entity
deriving DecidableEq, Repr

/-- Modelled from the spec: the per-pointer per-frame output of
`pointer_events` (`bevy_picking_core/src/events.rs`, not among the
sources). The hover sets are diffed for Out and Over; Move, Down, Up and
Scroll go to every currently hovered entity on the matching input edge;
Click accompanies Up for entities that were Down-hovered for this pointer
and button. Segments are emitted in the spec's fixed order. -/
def pointer_events (prev curr : List Entity)
    (moved downEdge upEdge scrolled : Bool) (downSet : List Entity) :
    List PEvent :=
  (prev.filter (fun e => !curr.contains e)).map (fun e => PEvent.mk .outK e)
    ++ ((curr.filter (fun e => !prev.contains e)).map (fun e => PEvent.mk .overK e)
    ++ ((if moved then curr.map (fun e => PEvent.mk .moveK e) else [])
    ++ ((if downEdge then curr.map (fun e => PEvent.mk .downK e) else [])
    ++ ((if upEdge then
          curr.map (fun e => PEvent.mk .upK e)
            ++ (curr.filter (fun e => downSet.contains e)).map
              (fun e => PEvent.mk .clickK e)
        else [])
    ++ (if scrolled then curr.map (fun e => PEvent.mk .scrollK e) else [])))))

/-- A list of events whose kind ranks are all equal has a sorted rank
sequence. -/
theorem sortedRanks_of_constRank (l : List PEvent) (k : Nat)
    (h : ∀ ev ∈ l, ev.kind.rank = k) :
    ((l.map (fun ev => ev.kind.rank)).Sorted (· ≤ ·)) := by
  induction l with
  | nil => simp
  | cons a l ih =>
    rw [List.map_cons, List.sorted_cons]
    refine ⟨?_, ih (fun ev hev => h ev (List.mem_cons_of_mem a hev))⟩
    intro b hb
    rcases List.mem_map.1 hb with ⟨ev, hev, rfl⟩
    rw [h a (List.mem_cons_self a l), h ev (List.mem_cons_of_mem a hev)]

/-- Prepending a constant-rank segment in front of a rank-sorted list with
ranks at least that constant keeps the rank sequence sorted. -/
theorem sortedRanks_append_segment (l₁ l₂ : List PEvent) (k : Nat)
    (h₁ : ∀ ev ∈ l₁, ev.kind.rank = k)
    (h₂ : ((l₂.map (fun ev => ev.kind.rank)).Sorted (· ≤ ·)))
    (h₃ : ∀ ev ∈ l₂, k ≤ ev.kind.rank) :
    (((l₁ ++ l₂).map (fun ev => ev.kind.rank)).Sorted (· ≤ ·)) := by
  rw [List.map_append]
  refine List.pairwise_append.2 ⟨sortedRanks_of_constRank l₁ k h₁, h₂, ?_⟩
  intro a ha b hb
  rcases List.mem_map.1 ha with ⟨ev, hev, rfl⟩
  rcases List.mem_map.1 hb with ⟨ev', hev', rfl⟩
  rw [h₁ ev hev]
  exact h₃ ev' hev'

/-- Every event in a possibly-suppressed single-kind segment has that
kind's rank. -/
theorem constRank_ite_map (b : Bool) (l : List Entity) (k : EvKind) :
    ∀ ev ∈ (if b then l.map (fun e => PEvent.mk k e) else []),
      ev.kind.rank = k.rank := by
  intro ev h
  split at h
  · rcases List.mem_map.1 h with ⟨e, _, rfl⟩; rfl
  · simp at h

/-- Every event in a plain single-kind segment has that kind's rank. -/
theorem constRank_map (l : List Entity) (k : EvKind) :
    ∀ ev ∈ l.map (fun e => PEvent.mk k e), ev.kind.rank = k.rank := by
  intro ev h
  rcases List.mem_map.1 h with ⟨e, _, rfl⟩; rfl

/-- Every event in the Up/Click segment has rank 4. -/
theorem constRank_upClick (b : Bool) (curr downSet : List Entity) :
    ∀ ev ∈ (if b then
        curr.map (fun e => PEvent.mk .upK e)
          ++ (curr.filter (fun e => downSet.contains e)).map
            (fun e => PEvent.mk .clickK e)
      else []), ev.kind.rank = 4 := by
  intro ev h
  split at h
  · rcases List.mem_append.1 h with h | h <;>
      · rcases List.mem_map.1 h with ⟨e, _, rfl⟩; rfl
  · simp at h

/-- A lower bound on ranks survives list append. -/
theorem minRank_append (l₁ l₂ : List PEvent) (k : Nat)
    (h₁ : ∀ ev ∈ l₁, k ≤ ev.kind.rank) (h₂ : ∀ ev ∈ l₂, k ≤ ev.kind.rank) :
    ∀ ev ∈ l₁ ++ l₂, k ≤ ev.kind.rank := by
  intro ev hev
  rcases List.mem_append.1 hev with h | h
  exacts [h₁ ev h, h₂ ev h]

/-- A lower bound on ranks follows from a constant rank at least the
bound. -/
theorem minRank_of_constRank (l : List PEvent) (k k' : Nat) (hk : k' ≤ k)
    (h : ∀ ev ∈ l, ev.kind.rank = k) : ∀ ev ∈ l, k' ≤ ev.kind.rank := by
  intro ev hev
  rw [h ev hev]
  exact hk

/-- Claim C5: for every pointer and frame, the emitted event sequence is
ordered by kind: all Out before all Over, both before Move, before Down
and Up, with Scroll last; Click sits in the Up slot after Down, so no
Click precedes its Down and no Out follows a later Over within the
frame. -/
theorem pointer_events_kind_order (prev curr : List Entity)
    (moved downEdge upEdge scrolled : Bool) (downSet : List Entity) :
    (((pointer_events prev curr moved downEdge upEdge scrolled downSet).map
      (fun ev => ev.kind.rank)).Sorted (· ≤ ·)) := by
  unfold pointer_events
  have h6 := constRank_ite_map scrolled curr .scrollK
  have h5 := constRank_upClick upEdge curr downSet
  have h4 := constRank_ite_map downEdge curr .downK
  have h3 := constRank_ite_map moved curr .moveK
  have h2 := constRank_map (curr.filter (fun e => !prev.contains e)) .overK
  have h1 := constRank_map (prev.filter (fun e => !curr.contains e)) .outK
  refine sortedRanks_append_segment _ _ 0 h1 ?_ ?_
  · refine sortedRanks_append_segment _ _ 1 h2 ?_ ?_
    · refine sortedRanks_append_segment _ _ 2 h3 ?_ ?_
      · refine sortedRanks_append_segment _ _ 3 h4 ?_ ?_
        · refine sortedRanks_append_segment _ _ 4 h5 ?_ ?_
          · exact sortedRanks_of_constRank _ 5 h6
          · exact minRank_of_constRank _ 5 4 (by omega) h6
        · exact minRank_append _ _ 3
            (minRank_of_constRank _ 4 3 (by omega) h5)
            (minRank_of_constRank _ 5 3 (by omega) h6)
      · exact minRank_append _ _ 2
          (minRank_of_constRank _ 3 2 (by omega) h4)
          (minRank_append _ _ 2
            (minRank_of_constRank _ 4 2 (by omega) h5)
            (minRank_of_constRank _ 5 2 (by omega) h6))
    · exact minRank_append _ _ 1
        (minRank_of_constRank _ 2 1 (by omega) h3)
        (minRank_append _ _ 1
          (minRank_of_constRank _ 3 1 (by omega) h4)
          (minRank_append _ _ 1
            (minRank_of_constRank _ 4 1 (by omega) h5)
            (minRank_of_constRank _ 5 1 (by omega) h6)))
  · refine minRank_append _ _ 0 (fun ev _ => Nat.zero_le _) ?_
    refine minRank_append _ _ 0 (fun ev _ => Nat.zero_le _) ?_
    refine minRank_append _ _ 0 (fun ev _ => Nat.zero_le _) ?_
    refine minRank_append _ _ 0 (fun ev _ => Nat.zero_le _)
      (fun ev _ => Nat.zero_le _)

/-- The `PickingInteraction` component values written by
`update_interactions` (declared in `focus.rs`). -/
inductive PickingInteraction
  | Pressed
  | Hovered
  | None
deriving DecidableEq, Repr

/-- Per-pointer per-frame view consumed by the Interaction State Tracker:
the pointer's current hover set and whether it has an active press. -/
structure PointerFrame where
  hover : List Entity
  pressed : Bool
deriving DecidableEq, Repr

/-- Modelled from the spec: the per-entity interaction state computed by
`update_interactions` (`bevy_picking_core/src/focus.rs`, not among the
sources): Pressed if some pointer whose current hover set contains the
entity has an active press; else Hovered if some current hover set
contains it; else None. -/
def interactionOf (ps : List PointerFrame) (e : Entity) : PickingInteraction :=
  if ps.any (fun p => p.pressed && p.hover.contains e) then .Pressed
  else if ps.any (fun p => p.hover.contains e) then .Hovered
  else .None

/-- Claim C9: the interaction state written for an entity is Pressed iff
some pointer whose current hover set contains it has an active press,
Hovered iff it appears in some current hover set but no such pressing
pointer exists, and None iff it appears in no current hover set: Pressed
dominates Hovered dominates None. -/
theorem interaction_pressed_dominates_hovered (ps : List PointerFrame)
    (e : Entity) :
    (interactionOf ps e = .Pressed ↔
      ∃ p ∈ ps, p.pressed = true ∧ e ∈ p.hover) ∧
    (interactionOf ps e = .Hovered ↔
      (∃ p ∈ ps, e ∈ p.hover) ∧
        ¬∃ p ∈ ps, p.pressed = true ∧ e ∈ p.hover) ∧
    (interactionOf ps e = .None ↔ ¬∃ p ∈ ps, e ∈ p.hover) := by
  by_cases hP : ps.any (fun p => p.pressed && p.hover.contains e) = true
  · have hP' : ∃ p ∈ ps, p.pressed = true ∧ e ∈ p.hover := by
      simpa [List.any_eq_true, Bool.and_eq_true] using hP
    have hI : interactionOf ps e = .Pressed := by
      simp [interactionOf, hP']
    rcases hP' with ⟨p, hp, hpress, hmem⟩
    rw [hI]
    refine ⟨⟨fun _ => ⟨p, hp, hpress, hmem⟩, fun _ => rfl⟩, ?_, ?_⟩
    · exact ⟨fun h => absurd h (by decide),
        fun h => absurd ⟨p, hp, hpress, hmem⟩ h.2⟩
    · exact ⟨fun h => absurd h (by decide),
        fun h => absurd ⟨p, hp, hmem⟩ h⟩
  · have hP' : ¬∃ p ∈ ps, p.pressed = true ∧ e ∈ p.hover := by
      simpa [List.any_eq_true, Bool.and_eq_true] using hP
    by_cases hH : ps.any (fun p => p.hover.contains e) = true
    · have hH' : ∃ p ∈ ps, e ∈ p.hover := by
        simpa [List.any_eq_true] using hH
      have hI : interactionOf ps e = .Hovered := by
        simp [interactionOf, hP', hH']
      rw [hI]
      refine ⟨⟨fun h => absurd h (by decide), fun h => absurd h hP'⟩,
        ⟨fun _ => ⟨hH', hP'⟩, fun _ => rfl⟩,
        ⟨fun h => absurd h (by decide), fun h => absurd hH' h⟩⟩
    · have hH' : ¬∃ p ∈ ps, e ∈ p.hover := by
        simpa [List.any_eq_true] using hH
      have hI : interactionOf ps e = .None := by
        simp [interactionOf, hP', hH']
      rw [hI]
      refine ⟨⟨fun h => absurd h (by decide), ?_⟩,
        ⟨fun h => absurd h (by decide), fun h => absurd h.1 hH'⟩,
        ⟨fun _ => hH', fun _ => rfl⟩⟩
      intro h
      rcases h with ⟨p, hp, _, hmem⟩
      exact absurd ⟨p, hp, hmem⟩ hH'

/-- Claim C9 witness: a pressed pointer hovering entity 3 yields the
Pressed state at a concrete input. -/
theorem interaction_pressed_dominates_hovered_witness :
    interactionOf [PointerFrame.mk [3] true] 3 = PickingInteraction.Pressed :=
  (interaction_pressed_dominates_hovered [PointerFrame.mk [3] true] 3).1.mpr
    ⟨PointerFrame.mk [3] true, by simp, by simp, by simp⟩

/-- Per-frame input for one (pointer, button) pair: the pointer's current
hover set, whether it moved, the press and release edges of the button,
and whether a pointer cancellation arrived. -/
structure FrameIn where
  curr : List Entity
  moved : Bool
  downEdge : Bool
  upEdge : Bool
  cancel : Bool
deriving DecidableEq, Repr

/-- Events emitted per (pointer, button) by the click and drag
machinery. -/
inductive Ev
  | downEv (e : Entity)
  | upEv (e : Entity)
  | clickEv (e : Entity)
  | dragStartEv (e : Entity)
  | dragEv (e : Entity)
  | dragEndEv (e : Entity)
  | dropEv (e : Entity)
deriving DecidableEq, Repr

/-- The drag phases of the spec's drag state machine: Idle, Pressed
(held), Dragging. -/
inductive Phase
  | idle
  | held
  | dragging
deriving DecidableEq, Repr

/-- State per (pointer, button): the drag phase, the entities that
received Down for the current press (pending click targets), and the drag
set. -/
structure PBState where
  phase : Phase
  downSet : List Entity
  dragSet : List Entity
deriving DecidableEq, Repr

/-- The initial per-(pointer, button) state: idle, nothing pending. -/
def initState : PBState := ⟨.idle, [], []⟩

/-- Modelled from the spec: the Down edge of one frame (the press half of
`pointer_events` and `send_click_and_drag_events` in
`bevy_picking_core/src/events.rs`, not among the sources): a press while
idle moves to the held phase, and the currently hovered entities become
the pending click targets. -/
def applyDown (s : PBState) (f : FrameIn) : PBState :=
  if f.downEdge then
    { phase := if s.phase = .idle then .held else s.phase
      downSet := f.curr
      dragSet := s.dragSet }
  else s

/-- Modelled from the spec: the move handling of one frame
(`send_click_and_drag_events` in `bevy_picking_core/src/events.rs`, not
among the sources): the first move while held starts a drag, emitting
DragStart to the drag set (the entities hovered at press time); further
moves while dragging emit Drag to the drag set. -/
def applyMove (s : PBState) (f : FrameIn) : PBState × List Ev :=
  if f.moved then
    match s.phase with
    | .held =>
      (⟨.dragging, s.downSet, s.downSet.dedup⟩,
        s.downSet.dedup.map Ev.dragStartEv)
    | .dragging => (s, s.dragSet.dedup.map Ev.dragEv)
    | .idle => (s, [])
  else (s, [])

/-- Modelled from the spec: the release handling of one frame
(`pointer_events` and `send_click_and_drag_events` in
`bevy_picking_core/src/events.rs`, not among the sources): Up goes to
every hovered entity, Click to hovered entities that were Down-hovered
for this press, and a release while dragging emits DragEnd to the drag
set and Drop to the topmost hovered entity, then returns to idle. -/
def applyUp (s : PBState) (f : FrameIn) : PBState × List Ev :=
  if f.upEdge then
    (initState,
      f.curr.map Ev.upEv
        ++ ((f.curr.filter (fun e => s.downSet.contains e)).map Ev.clickEv
        ++ (if s.phase = .dragging then
              s.dragSet.dedup.map Ev.dragEndEv
                ++ (f.curr.head?).toList.map Ev.dropEv
            else [])))
  else (s, [])

/-- Modelled from the spec: one frame of the per-(pointer, button) click
and drag machinery (`bevy_picking_core/src/events.rs`, not among the
sources). A cancellation clears all state and emits DragEnd (without
Drop) when a drag was active, suppressing everything else for the frame;
otherwise the Down edge, the move handling and the release handling are
applied in order, with Down events emitted to every hovered entity on a
press edge. -/
def step (s : PBState) (f : FrameIn) : PBState × List Ev :=
  if f.cancel then
    (initState,
      if s.phase = .dragging then s.dragSet.dedup.map Ev.dragEndEv else [])
  else
    let s1 := applyDown s f
    let p2 := applyMove s1 f
    let p3 := applyUp p2.1 f
    (p3.1,
      (if f.downEdge then f.curr.map Ev.downEv else []) ++ (p2.2 ++ p3.2))

/-- The per-(pointer, button) state after processing a trace of frames
from the initial state. -/
def stateAt (t : List FrameIn) : PBState :=
  t.foldl (fun s f => (step s f).1) initState

/-- The events the machinery emits at frame `i` of a trace. -/
def eventsAt (t : List FrameIn) (i : Nat) (hi : i < t.length) : List Ev :=
  (step (stateAt (t.take i)) t[i]).2

/-- The events the machinery emits over a whole trace, in frame order. -/
def runEvents (s : PBState) : List FrameIn → List Ev
  | [] => []
  | f :: rest => (step s f).2 ++ runEvents (step s f).1 rest

/-- The state after running a trace from an arbitrary start state. -/
def runState (s : PBState) (t : List FrameIn) : PBState :=
  t.foldl (fun s f => (step s f).1) s

/-- Processing one more frame at the end of a trace steps the final
state. -/
theorem stateAt_append_singleton (t : List FrameIn) (f : FrameIn) :
    stateAt (t ++ [f]) = (step (stateAt t) f).1 := by
  simp [stateAt, List.foldl_append]

/-- The Down edge never changes the drag set. -/
theorem applyDown_dragSet (s : PBState) (f : FrameIn) :
    (applyDown s f).dragSet = s.dragSet := by
  obtain ⟨ph, ds, gs⟩ := s
  obtain ⟨curr, mv, de, ue, ca⟩ := f
  cases de <;> rfl

/-- The pending click targets after the Down edge. -/
theorem applyDown_downSet (s : PBState) (f : FrameIn) :
    (applyDown s f).downSet = if f.downEdge then f.curr else s.downSet := by
  obtain ⟨ph, ds, gs⟩ := s
  obtain ⟨curr, mv, de, ue, ca⟩ := f
  cases de <;> rfl

/-- The move handling never changes the pending click targets. -/
theorem applyMove_downSet (s : PBState) (f : FrameIn) :
    (applyMove s f).1.downSet = s.downSet := by
  obtain ⟨ph, ds, gs⟩ := s
  obtain ⟨curr, mv, de, ue, ca⟩ := f
  cases mv <;> cases ph <;> rfl

/-- A Click for an entity is emitted in a frame exactly when no
cancellation arrived, the button was released, the entity is currently
hovered, and it is among the pending click targets (the hover set
captured at the press edge, or this frame's hover set if the press edge
is in this very frame). -/
theorem clickEv_mem_step (s : PBState) (f : FrameIn) (e : Entity) :
    Ev.clickEv e ∈ (step s f).2 ↔
      f.cancel = false ∧ f.upEdge = true ∧ e ∈ f.curr ∧
        e ∈ (if f.downEdge then f.curr else s.downSet) := by
  obtain ⟨ph, ds, gs⟩ := s
  obtain ⟨curr, mv, de, ue, ca⟩ := f
  cases ca <;> cases de <;> cases mv <;> cases ue <;> cases ph <;>
    simp [step, applyDown, applyMove, applyUp, initState, and_assoc]

/-- A Down event for an entity is emitted in a frame exactly when no
cancellation arrived, the press edge fired, and the entity is currently
hovered. -/
theorem downEv_mem_step (s : PBState) (f : FrameIn) (e : Entity) :
    Ev.downEv e ∈ (step s f).2 ↔
      f.cancel = false ∧ f.downEdge = true ∧ e ∈ f.curr := by
  obtain ⟨ph, ds, gs⟩ := s
  obtain ⟨curr, mv, de, ue, ca⟩ := f
  cases ca <;> cases de <;> cases mv <;> cases ue <;> cases ph <;>
    simp [step, applyDown, applyMove, applyUp, initState]

/-- A Drop can only be emitted on a release with no cancellation, and its
target is the topmost currently hovered entity. -/
theorem dropEv_mem_step (s : PBState) (f : FrameIn) (e : Entity)
    (h : Ev.dropEv e ∈ (step s f).2) :
    f.cancel = false ∧ f.upEdge = true ∧ f.curr.head? = some e := by
  obtain ⟨ph, ds, gs⟩ := s
  obtain ⟨curr, mv, de, ue, ca⟩ := f
  cases ca <;> cases de <;> cases mv <;> cases ue <;> cases ph <;>
    simp_all [step, applyDown, applyMove, applyUp, initState, Option.mem_def]

/-- The pending click targets surviving a frame: cancellation and release
clear them, a press edge captures the current hover set, otherwise they
are kept. -/
theorem step_downSet (s : PBState) (f : FrameIn) :
    (step s f).1.downSet =
      if f.cancel || f.upEdge then []
      else if f.downEdge then f.curr else s.downSet := by
  obtain ⟨ph, ds, gs⟩ := s
  obtain ⟨curr, mv, de, ue, ca⟩ := f
  cases ca <;> cases de <;> cases mv <;> cases ue <;> cases ph <;>
    simp [step, applyDown, applyMove, applyUp, initState]

/-- Invariant: an entity among the pending click targets after a trace
received its press at some frame (press edge, no cancellation, entity
hovered there), and no cancellation arrived at any later frame of the
trace. -/
theorem downSet_has_down_frame (t : List FrameIn) (e : Entity)
    (h : e ∈ (stateAt t).downSet) :
    ∃ j, ∃ hj : j < t.length,
      t[j].downEdge = true ∧ t[j].cancel = false ∧ e ∈ t[j].curr ∧
      ∀ k, ∀ hk : k < t.length, j < k → t[k].cancel = false := by
  induction t using List.reverseRecOn with
  | nil => simp [stateAt, initState] at h
  | append_singleton t f ih =>
    rw [stateAt_append_singleton, step_downSet] at h
    by_cases hcu : (f.cancel || f.upEdge) = true
    · rw [if_pos hcu] at h
      simp at h
    · rw [if_neg hcu] at h
      have hca : f.cancel = false := by
        cases hc : f.cancel
        · rfl
        · rw [hc] at hcu; simp at hcu
      by_cases hde : f.downEdge = true
      · rw [if_pos hde] at h
        refine ⟨t.length, by simp, ?_, ?_, ?_, ?_⟩
        · rw [List.getElem_concat_length t f _ rfl]; exact hde
        · rw [List.getElem_concat_length t f _ rfl]; exact hca
        · rw [List.getElem_concat_length t f _ rfl]; exact h
        · intro k hk hjk
          simp only [List.length_append, List.length_singleton] at hk
          omega
      · rw [if_neg hde] at h
        obtain ⟨j, hj, hd, hc, hm, hlater⟩ := ih h
        have hj' : j < (t ++ [f]).length := by
          simp only [List.length_append, List.length_singleton]
          omega
        refine ⟨j, hj', ?_, ?_, ?_, ?_⟩
        · rw [List.getElem_append_left hj]; exact hd
        · rw [List.getElem_append_left hj]; exact hc
        · rw [List.getElem_append_left hj]; exact hm
        · intro k hk hjk
          simp only [List.length_append, List.length_singleton] at hk
          by_cases hkt : k < t.length
          · rw [List.getElem_append_left hkt]
            exact hlater k hkt hjk
          · have hkeq : k = t.length := by omega
            subst hkeq
            rw [List.getElem_concat_length t f _ rfl]
            exact hca

/-- Claim C6: a Click for an entity (for one pointer and button) is
emitted at a frame only if a Down for the same entity was emitted at the
same or an earlier frame, no pointer cancellation arrived between that
Down and the release, and the entity is still in the pointer's hover set
when the release happens. -/
theorem click_requires_prior_down (t : List FrameIn) (i : Nat)
    (hi : i < t.length) (e : Entity)
    (hc : Ev.clickEv e ∈ eventsAt t i hi) :
    e ∈ t[i].curr ∧ t[i].cancel = false ∧
    ∃ j, ∃ hj : j < t.length, j ≤ i ∧
      Ev.downEv e ∈ eventsAt t j hj ∧
      ∀ k, ∀ hk : k < t.length, j < k → k ≤ i → t[k].cancel = false := by
  obtain ⟨hca, hue, hcurr, hds⟩ :=
    (clickEv_mem_step (stateAt (t.take i)) t[i] e).1 hc
  refine ⟨hcurr, hca, ?_⟩
  by_cases hde : t[i].downEdge = true
  · refine ⟨i, hi, le_refl i, ?_, ?_⟩
    · exact (downEv_mem_step (stateAt (t.take i)) t[i] e).2 ⟨hca, hde, hcurr⟩
    · intro k hk hik hki
      omega
  · rw [if_neg hde] at hds
    obtain ⟨j, hj, hd, hc', hm, hlater⟩ := downSet_has_down_frame (t.take i) e hds
    have hji : j < i := by
      have := hj
      simp only [List.length_take] at this
      omega
    have htj : (t.take i)[j] = t[j] := List.getElem_take ..
    rw [htj] at hd hc' hm
    refine ⟨j, by omega, by omega, ?_, ?_⟩
    · exact (downEv_mem_step (stateAt (t.take j)) t[j] e).2 ⟨hc', hd, hm⟩
    · intro k hk hjk hki
      by_cases hklt : k < i
      · have hk' : k < (t.take i).length := by
          simp only [List.length_take]
          omega
        have := hlater k hk' hjk
        rwa [List.getElem_take] at this
      · have : k = i := by omega
        subst this
        exact hca

/-- Claim C6 witness: a press on entity 4 at frame 0 followed by a release
at frame 1 emits a Click whose Down precedes it, with no cancellation in
between. -/
theorem click_requires_prior_down_witness :
    (Ev.clickEv 4 ∈
      eventsAt [⟨[4], false, true, false, false⟩,
        ⟨[4], false, false, true, false⟩] 1 (by decide)) ∧
    (4 ∈ ([⟨[4], false, true, false, false⟩,
        ⟨[4], false, false, true, false⟩] : List FrameIn)[1].curr ∧
      ([⟨[4], false, true, false, false⟩,
        ⟨[4], false, false, true, false⟩] : List FrameIn)[1].cancel = false ∧
      ∃ j, ∃ hj : j < ([⟨[4], false, true, false, false⟩,
        ⟨[4], false, false, true, false⟩] : List FrameIn).length, j ≤ 1 ∧
        Ev.downEv 4 ∈ eventsAt [⟨[4], false, true, false, false⟩,
          ⟨[4], false, false, true, false⟩] j hj ∧
        ∀ k, ∀ hk : k < ([⟨[4], false, true, false, false⟩,
          ⟨[4], false, false, true, false⟩] : List FrameIn).length,
          j < k → k ≤ 1 →
          ([⟨[4], false, true, false, false⟩,
            ⟨[4], false, false, true, false⟩] : List FrameIn)[k].cancel
            = false) :=
  ⟨by decide,
    click_requires_prior_down
      [⟨[4], false, true, false, false⟩, ⟨[4], false, false, true, false⟩]
      1 (by decide) 4 (by decide)⟩

/-- The drag-lifecycle alphabet for one entity: DragStart, Drag,
DragEnd. -/
inductive DK
  | startK
  | dragK
  | endK
deriving DecidableEq, Repr

/-- Projection of an emitted event onto the drag-lifecycle alphabet of
one entity. -/
def dragKindOf (e : Entity) : Ev → Option DK
  | .dragStartEv x => if x = e then some .startK else none
  | .dragEv x => if x = e then some .dragK else none
  | .dragEndEv x => if x = e then some .endK else none
  | _ => none

/-- The drag-lifecycle events of an event list targeting one entity. -/
def dragProj (e : Entity) (l : List Ev) : List DK :=
  l.filterMap (dragKindOf e)

/-- The two-state session automaton for one entity's drag lifecycle:
closed (false) accepts only DragStart, which opens a session; open (true)
accepts Drag events and is closed by exactly one DragEnd. -/
def dragStep : Bool → DK → Option Bool
  | false, .startK => some true
  | true, .dragK => some true
  | true, .endK => some false
  | _, _ => none

/-- Run the session automaton over a word; `none` means the word is not a
well-bracketed drag-lifecycle sequence. -/
def dragRun (b : Bool) : List DK → Option Bool
  | [] => some b
  | k :: rest =>
    match dragStep b k with
    | some b2 => dragRun b2 rest
    | none => none

/-- Whether an entity currently has an open drag session. -/
def inDrag (s : PBState) (e : Entity) : Bool :=
  match s.phase with
  | .dragging => decide (e ∈ s.dragSet)
  | _ => false

/-- Running the session automaton over a concatenation runs it over the
pieces in sequence. -/
theorem dragRun_append (b : Bool) (l₁ l₂ : List DK) :
    dragRun b (l₁ ++ l₂) =
      match dragRun b l₁ with
      | some b2 => dragRun b2 l₂
      | none => none := by
  induction l₁ generalizing b with
  | nil => rfl
  | cons k l ih =>
    cases b <;> cases k <;> simp [dragRun, dragStep, ih]

/-- Projection distributes over event-list concatenation. -/
theorem dragProj_append (e : Entity) (l₁ l₂ : List Ev) :
    dragProj e (l₁ ++ l₂) = dragProj e l₁ ++ dragProj e l₂ := by
  simp [dragProj]

/-- Events outside the drag lifecycle vanish under projection. -/
theorem dragProj_map_of_none (e : Entity) (l : List Entity)
    (g : Entity → Ev) (hg : ∀ x, dragKindOf e (g x) = none) :
    dragProj e (l.map g) = [] := by
  induction l with
  | nil => rfl
  | cons a l ih =>
    simp only [List.map_cons, dragProj, List.filterMap_cons, hg]
    simpa [dragProj] using ih

/-- A drag-lifecycle emission over a duplicate-free entity list projects
to one letter when the entity is in the list, and nothing otherwise. -/
theorem dragProj_map_of_kind (e : Entity) (l : List Entity)
    (g : Entity → Ev) (k : DK)
    (hg : ∀ x, dragKindOf e (g x) = if x = e then some k else none)
    (hnd : l.Nodup) :
    dragProj e (l.map g) = if e ∈ l then [k] else [] := by
  induction l with
  | nil => rfl
  | cons a l ih =>
    rw [List.nodup_cons] at hnd
    have ih' := ih hnd.2
    by_cases hae : a = e
    · subst hae
      rw [if_neg hnd.1] at ih'
      simp only [dragProj] at ih' ⊢
      simp [List.filterMap_cons, hg a, ih']
    · have hmem : (e ∈ a :: l) ↔ (e ∈ l) := by
        constructor
        · intro h
          rcases List.mem_cons.1 h with h | h
          · exact absurd h.symm hae
          · exact h
        · exact fun h => List.mem_cons_of_mem a h
      simp only [dragProj] at ih' ⊢
      rw [List.map_cons, List.filterMap_cons, hg a, if_neg hae, ih']
      by_cases hel : e ∈ l
      · rw [if_pos hel, if_pos (hmem.2 hel)]
      · rw [if_neg hel, if_neg (fun h => hel (hmem.1 h))]

/-- DragStart emissions over a deduplicated list project to at most one
opening letter. -/
theorem dragProj_start (e : Entity) (l : List Entity) :
    dragProj e (l.dedup.map Ev.dragStartEv) =
      if e ∈ l then [DK.startK] else [] := by
  rw [dragProj_map_of_kind e l.dedup Ev.dragStartEv .startK (fun x => rfl)
    (List.nodup_dedup l)]
  simp [List.mem_dedup]

/-- Drag emissions over a deduplicated list project to at most one
letter. -/
theorem dragProj_drag (e : Entity) (l : List Entity) :
    dragProj e (l.dedup.map Ev.dragEv) =
      if e ∈ l then [DK.dragK] else [] := by
  rw [dragProj_map_of_kind e l.dedup Ev.dragEv .dragK (fun x => rfl)
    (List.nodup_dedup l)]
  simp [List.mem_dedup]

/-- DragEnd emissions over a deduplicated list project to at most one
closing letter. -/
theorem dragProj_endLetter (e : Entity) (l : List Entity) :
    dragProj e (l.dedup.map Ev.dragEndEv) =
      if e ∈ l then [DK.endK] else [] := by
  rw [dragProj_map_of_kind e l.dedup Ev.dragEndEv .endK (fun x => rfl)
    (List.nodup_dedup l)]
  simp [List.mem_dedup]

/-- The Down edge does not change whether a drag session is open. -/
theorem inDrag_applyDown (s : PBState) (f : FrameIn) (e : Entity) :
    inDrag (applyDown s f) e = inDrag s e := by
  obtain ⟨ph, ds, gs⟩ := s
  obtain ⟨curr, mv, de, ue, ca⟩ := f
  cases de <;> cases ph <;> rfl

/-- The move handling advances each entity's session automaton exactly as
it changes that entity's open-session status. -/
theorem dragRun_applyMove (s : PBState) (f : FrameIn) (e : Entity) :
    dragRun (inDrag s e) (dragProj e (applyMove s f).2) =
      some (inDrag (applyMove s f).1 e) := by
  obtain ⟨ph, ds, gs⟩ := s
  obtain ⟨curr, mv, de, ue, ca⟩ := f
  cases mv with
  | false => rfl
  | true =>
    cases ph with
    | idle => rfl
    | held =>
      by_cases he : e ∈ ds <;>
        simp [applyMove, inDrag, dragProj_start, he, dragRun, dragStep,
          List.mem_dedup]
    | dragging =>
      by_cases he : e ∈ gs <;>
        simp [applyMove, inDrag, dragProj_drag, he, dragRun, dragStep,
          List.mem_dedup]

/-- The release handling advances each entity's session automaton exactly
as it changes that entity's open-session status. -/
theorem dragRun_applyUp (s : PBState) (f : FrameIn) (e : Entity) :
    dragRun (inDrag s e) (dragProj e (applyUp s f).2) =
      some (inDrag (applyUp s f).1 e) := by
  obtain ⟨ph, ds, gs⟩ := s
  obtain ⟨curr, mv, de, ue, ca⟩ := f
  cases ue with
  | false => rfl
  | true =>
    cases ph with
    | idle =>
      simp [applyUp, inDrag, initState, dragProj_append,
        dragProj_map_of_none e curr Ev.upEv (fun x => rfl),
        dragProj_map_of_none e _ Ev.clickEv (fun x => rfl), dragRun]
    | held =>
      simp [applyUp, inDrag, initState, dragProj_append,
        dragProj_map_of_none e curr Ev.upEv (fun x => rfl),
        dragProj_map_of_none e _ Ev.clickEv (fun x => rfl), dragRun]
    | dragging =>
      by_cases he : e ∈ gs <;>
        simp [applyUp, inDrag, initState, dragProj_append,
          dragProj_map_of_none e curr Ev.upEv (fun x => rfl),
          dragProj_map_of_none e _ Ev.clickEv (fun x => rfl),
          dragProj_endLetter, he,
          dragProj_map_of_none e _ Ev.dropEv (fun x => rfl),
          dragRun, dragStep, List.mem_dedup]

/-- One full frame advances each entity's session automaton exactly as it
changes that entity's open-session status. -/
theorem dragRun_step (s : PBState) (f : FrameIn) (e : Entity) :
    dragRun (inDrag s e) (dragProj e (step s f).2) =
      some (inDrag (step s f).1 e) := by
  by_cases hca : f.cancel = true
  · obtain ⟨ph, ds, gs⟩ := s
    cases ph <;> by_cases he : e ∈ gs <;>
      simp [step, hca, initState, inDrag, dragProj_endLetter, he, dragRun,
        dragStep, List.mem_dedup]
  · have hca' : f.cancel = false := by
      cases hc : f.cancel
      · rfl
      · exact absurd hc hca
    have h1 : (step s f).2 =
        (if f.downEdge then f.curr.map Ev.downEv else []) ++
          ((applyMove (applyDown s f) f).2 ++
            (applyUp (applyMove (applyDown s f) f).1 f).2) := by
      simp [step, hca']
    have h2 : (step s f).1 =
        (applyUp (applyMove (applyDown s f) f).1 f).1 := by
      simp [step, hca']
    have hd0 : dragProj e
        (if f.downEdge then f.curr.map Ev.downEv else []) = [] := by
      split
      · exact dragProj_map_of_none e _ Ev.downEv (fun x => rfl)
      · rfl
    rw [h1, h2, dragProj_append, hd0, List.nil_append, dragProj_append,
      dragRun_append, ← inDrag_applyDown s f e, dragRun_applyMove]
    exact dragRun_applyUp _ f e

/-- Over a whole trace, each entity's drag-lifecycle projection is a
well-bracketed word of complete sessions, with one open session pending
exactly when the final state still drags the entity. -/
theorem dragRun_runEvents (s : PBState) (t : List FrameIn) (e : Entity) :
    dragRun (inDrag s e) (dragProj e (runEvents s t)) =
      some (inDrag (runState s t) e) := by
  induction t generalizing s with
  | nil => rfl
  | cons f rest ih =>
    rw [runEvents, dragProj_append, dragRun_append, dragRun_step]
    exact ih (step s f).1

/-- Recognizer for Drop events. -/
def isDropEv : Ev → Bool
  | .dropEv _ => true
  | _ => false

/-- Emissions of a non-Drop shape contribute no Drop events. -/
theorem countP_isDropEv_map (g : Entity → Ev)
    (hg : ∀ x, isDropEv (g x) = false) (l : List Entity) :
    (l.map g).countP isDropEv = 0 := by
  induction l with
  | nil => rfl
  | cons a l ih => simp [List.countP_cons, hg, ih]

/-- Each frame emits at most one Drop event. -/
theorem drop_once_step (s : PBState) (f : FrameIn) :
    (step s f).2.countP isDropEv ≤ 1 := by
  obtain ⟨ph, ds, gs⟩ := s
  obtain ⟨curr, mv, de, ue, ca⟩ := f
  have hup := countP_isDropEv_map Ev.upEv (fun x => rfl)
  have hdown := countP_isDropEv_map Ev.downEv (fun x => rfl)
  have hclick := countP_isDropEv_map Ev.clickEv (fun x => rfl)
  have hstart := countP_isDropEv_map Ev.dragStartEv (fun x => rfl)
  have hdrag := countP_isDropEv_map Ev.dragEv (fun x => rfl)
  have hend := countP_isDropEv_map Ev.dragEndEv (fun x => rfl)
  cases ca <;> cases de <;> cases mv <;> cases ue <;> cases ph <;>
    cases curr <;>
    simp [step, applyDown, applyMove, applyUp, initState,
      List.countP_append, hup, hdown, hclick, hstart, hdrag, hend,
      isDropEv, List.countP_cons]

/-- Claim C7: per (pointer, button) and per entity, the drag-lifecycle
events of any trace form complete sessions of exactly one DragStart, then
Drag events, then exactly one DragEnd (with at most one session left open
exactly when the final state still drags the entity); a Drop is emitted
only on a release with no cancellation, targets the topmost entity
hovered at release time (which need not belong to the drag set), and at
most one Drop is emitted per frame — hence at most one per session, since
the session ends at the frame that can emit it. -/
theorem drag_session_round_trip :
    (∀ (t : List FrameIn) (e : Entity),
      dragRun false (dragProj e (runEvents initState t)) =
        some (inDrag (stateAt t) e)) ∧
    (∀ (t : List FrameIn) (i : Nat) (hi : i < t.length) (e : Entity),
      Ev.dropEv e ∈ eventsAt t i hi →
        t[i].cancel = false ∧ t[i].upEdge = true ∧
          t[i].curr.head? = some e) ∧
    (∀ (t : List FrameIn) (i : Nat) (hi : i < t.length),
      (eventsAt t i hi).countP isDropEv ≤ 1) := by
  refine ⟨?_, ?_, ?_⟩
  · intro t e
    exact dragRun_runEvents initState t e
  · intro t i hi e h
    exact dropEv_mem_step _ _ _ h
  · intro t i hi
    exact drop_once_step _ _

/-- The concrete three-frame trace used to witness Claim C7: press over
entity 5, move (starting the drag), release over entities 7 then 5. -/
def dragWitnessTrace : List FrameIn :=
  [⟨[5], false, true, false, false⟩,
    ⟨[5], true, false, false, false⟩,
    ⟨[7, 5], false, false, true, false⟩]

/-- Claim C7 witness: on the concrete trace, the drag projection for
entity 5 is one complete session, and the Drop emitted at the release
frame targets entity 7, the topmost hovered at release. -/
theorem drag_session_round_trip_witness :
    (dragRun false (dragProj 5 (runEvents initState dragWitnessTrace)) =
      some (inDrag (stateAt dragWitnessTrace) 5)) ∧
    (Ev.dropEv 7 ∈ eventsAt dragWitnessTrace 2 (by decide)) ∧
    (dragWitnessTrace[2].cancel = false ∧
      dragWitnessTrace[2].upEdge = true ∧
      dragWitnessTrace[2].curr.head? = some 7) :=
  ⟨drag_session_round_trip.1 dragWitnessTrace 5,
    by decide,
    drag_session_round_trip.2.1 dragWitnessTrace 2 (by decide) 7
      (by decide)⟩

end BevyPicking
